import Mathlib

/-!
Shallow embedding of IceScriber's sliding-window transcript assembly pipeline
(src/transcribe.py and src/scripts/transcription/chapterbatch.py).

String-processing primitives from Python (`str.split`, `str.strip`,
`str.lower`, `str.find`, `' '.join`, `'\n'.join`) are embedded as
character-list recursions so that all definitions are executable and
kernel-reducible.  Python's Unicode-aware case predicates are modelled by
Lean's ASCII `Char.isUpper`/`Char.isLower`/`Char.toUpper`/`Char.toLower`;
all concrete inputs used in theorems are ASCII, where the two agree.
Python floats (window start times) are modelled by exact rationals.
-/

/-- Worker for `pySplit`: accumulates the current token (reversed). -/
def pySplitGo : List Char → List Char → List String
  | cur, [] => if cur.isEmpty then [] else [String.mk cur.reverse]
  | cur, c :: cs =>
    if c.isWhitespace then
      if cur.isEmpty then pySplitGo [] cs
      else String.mk cur.reverse :: pySplitGo [] cs
    else pySplitGo (c :: cur) cs

/-- Python `s.split()` (no separator): split on runs of whitespace, dropping
empty tokens. -/
def pySplit (s : String) : List String :=
  pySplitGo [] s.data

/-- Python `s.strip()`: remove leading and trailing whitespace. -/
def pyStrip (s : String) : String :=
  String.mk (((s.data.dropWhile Char.isWhitespace).reverse.dropWhile Char.isWhitespace).reverse)

/-- Python `s.lower()` (ASCII model). -/
def pyLower (s : String) : String :=
  String.mk (s.data.map Char.toLower)

/-- Python `' '.join(words)`. -/
def joinWords : List String → String
  | [] => ""
  | [w] => w
  | w :: ws => w ++ " " ++ joinWords ws

/-- Python `'\n'.join(lines)`. -/
def joinNL : List String → String
  | [] => ""
  | [l] => l
  | l :: ls => l ++ "\n" ++ joinNL ls

/-- Python `s.find(c)` on a character list: index of the first occurrence. -/
def pyFind : List Char → Char → Option Nat
  | [], _ => none
  | c :: cs, t => if c = t then some 0 else (pyFind cs t).map (· + 1)

/-- `text.lower().split()` — the tokenization performed at the start of
`find_overlap_end` (src/transcribe.py line 185). -/
def normWords (s : String) : List String :=
  pySplit (pyLower s)

/-- `sum(1 for p, c in zip(prev_end, curr_start) if p == c)`
(src/transcribe.py line 200): number of positionally equal words. -/
def matchCount : List String → List String → Nat
  | p :: ps, c :: cs => (if p = c then 1 else 0) + matchCount ps cs
  | _, _ => 0

/-- The source tests `matches / overlap_len >= 0.85` in floating point
(src/transcribe.py line 203).  For `0 < L ≤ 30` and `m ≤ L` the float
comparison coincides exactly with the rational comparison `17 * L ≤ 20 * m`:
the quotient `m / L` is more than `2^-10` away from `17/20` whenever the
rational comparison differs from equality, far beyond double rounding error,
and at equality (`L = 20`, `m = 17`) both the quotient and the literal `0.85`
round to the same double. -/
def thresholdOK (m L : Nat) : Bool :=
  17 * L ≤ 20 * m

/-- The inner loop of `find_overlap_end`
(`for start_idx in range(len(curr_norm) - overlap_len + 1)`,
src/transcribe.py lines 196-204): first accepted start index, if any. -/
def findOffset (prevEnd currNorm : List String) (L : Nat) : Option Nat :=
  (List.range (currNorm.length - L + 1)).find? fun j =>
    thresholdOK (matchCount prevEnd ((currNorm.drop j).take L)) L

/-- `descList hi n = [hi, hi - 1, …, hi - n + 1]`: Python's
`range(hi, hi - n, -1)`. -/
def descList : Nat → Nat → List Nat
  | _, 0 => []
  | hi, n + 1 => hi :: descList (hi - 1) n

/-- Word-level core of `find_overlap_end` (src/transcribe.py lines 188-206):
scan candidate overlap lengths `L` from `min(len(prev), len(curr), 30)` down
to `minOverlapWords` (Python `range(…, minOverlapWords - 1, -1)`, faithful
for `minOverlapWords ≥ 1`); for each `L` compare `prev`'s last `L` words
against every window of `curr` of length `L`, and return `start_idx + L` for
the first candidate clearing the 0.85 threshold, else 0. -/
def findOverlapWords (prevNorm currNorm : List String) (minOverlapWords : Nat) : Nat :=
  let maxL := min (min prevNorm.length currNorm.length) 30
  let r := (descList maxL (maxL + 1 - minOverlapWords)).findSome? fun L =>
    (findOffset (prevNorm.drop (prevNorm.length - L)) currNorm L).map (· + L)
  r.getD 0

/-- `find_overlap_end(prev_text, curr_text, min_overlap_words=5)`
(src/transcribe.py lines 179-206, identical copy in
src/scripts/transcription/chapterbatch.py lines 180-207). -/
def find_overlap_end (prevText currText : String) (minOverlapWords : Nat := 5) : Nat :=
  findOverlapWords (normWords prevText) (normWords currText) minOverlapWords

/-! ### Spec-side formulation of the overlap resolver (for the refinement claim) -/

/-- Follows the spec's words (§4.2): the positional `matchRatio` of `prev`'s
last `L` words against `curr[j : j+L]`, as an exact rational. -/
def matchRatio (prev curr : List String) (L j : Nat) : ℚ :=
  (matchCount (prev.drop (prev.length - L)) ((curr.drop j).take L) : ℚ) / (L : ℚ)

/-- Follows the spec's words (§4.2): all candidate `(L, j)` pairs in scan
order, `L` from `min(len(prev), len(curr), 30)` down to `minOverlap`, then
`j` from 0 upward over the offsets where a window of length `L` fits. -/
def specCandidates (prev curr : List String) (minOverlap : Nat) : List (Nat × Nat) :=
  let maxL := min (min prev.length curr.length) 30
  (descList maxL (maxL + 1 - minOverlap)).flatMap fun L =>
    (List.range (curr.length - L + 1)).map fun j => (L, j)

/-- Follows the spec's words (§4.2): the first candidate in scan order with
`matchRatio ≥ 0.85` yields skip count `j + L`; if none clears the threshold,
the resolver returns 0. -/
def specOverlapResolver (prev curr : List String) (minOverlap : Nat) : Nat :=
  match (specCandidates prev curr minOverlap).find?
      (fun c => decide ((85 : ℚ) / 100 ≤ matchRatio prev curr c.1 c.2)) with
  | some c => c.2 + c.1
  | none => 0

theorem mem_descList {L hi n : Nat} (h : L ∈ descList hi n) : L ≤ hi ∧ hi < L + n := by
  induction n generalizing hi with
  | zero => simp [descList] at h
  | succ n ih =>
    simp only [descList, List.mem_cons] at h
    rcases h with rfl | h
    · omega
    · have := ih h
      omega

theorem ratio_iff_thresholdOK (m L : Nat) (hL : 0 < L) :
    ((85 : ℚ) / 100 ≤ (m : ℚ) / (L : ℚ)) ↔ thresholdOK m L = true := by
  have hL' : (0 : ℚ) < (L : ℚ) := by exact_mod_cast hL
  rw [div_le_div_iff₀ (by norm_num) hL']
  simp only [thresholdOK, decide_eq_true_eq]
  constructor
  · intro h
    have h' : 85 * L ≤ m * 100 := by exact_mod_cast h
    omega
  · intro h
    have h' : 85 * L ≤ m * 100 := by omega
    exact_mod_cast h'

theorem findSome?_congrAux {α β : Type} {f g : α → Option β} :
    ∀ l : List α, (∀ a ∈ l, f a = g a) → l.findSome? f = l.findSome? g
  | [], _ => rfl
  | a :: l, h => by
    rw [List.findSome?_cons, List.findSome?_cons, h a (List.mem_cons_self a l),
      findSome?_congrAux l (fun b hb => h b (List.mem_cons_of_mem a hb))]

theorem findSome?_map_getD_eq_match {g : Nat → Option Nat} :
    ∀ Ls : List Nat,
      (Ls.findSome? fun L => (g L).map (· + L)).getD 0 =
        (match Ls.findSome? (fun L => (g L).map fun j => (L, j)) with
          | some c => c.2 + c.1
          | none => 0)
  | [] => rfl
  | L :: Ls => by
    rw [List.findSome?_cons, List.findSome?_cons]
    cases hg : g L with
    | none => simpa using findSome?_map_getD_eq_match Ls
    | some j => simp

theorem find?_congrAux {α : Type} {p q : α → Bool} :
    ∀ l : List α, (∀ a ∈ l, p a = q a) → l.find? p = l.find? q
  | [], _ => rfl
  | a :: l, h => by
    rw [List.find?_cons, List.find?_cons, h a (List.mem_cons_self a l),
      find?_congrAux l (fun b hb => h b (List.mem_cons_of_mem a hb))]

theorem findOverlapWords_eq_spec (prev curr : List String) (m : Nat) (hm : 1 ≤ m) :
    findOverlapWords prev curr m = specOverlapResolver prev curr m := by
  unfold findOverlapWords specOverlapResolver specCandidates
  rw [List.find?_flatMap]
  have hinner : ∀ L ∈ descList (min (min prev.length curr.length) 30)
      (min (min prev.length curr.length) 30 + 1 - m),
      (((List.range (curr.length - L + 1)).map fun j => (L, j)).find?
          (fun c => decide ((85 : ℚ) / 100 ≤ matchRatio prev curr c.1 c.2))) =
        ((findOffset (prev.drop (prev.length - L)) curr L).map fun j => (L, j)) := by
    intro L hL
    have hb := mem_descList hL
    have hL1 : 0 < L := by omega
    rw [List.find?_map]
    unfold findOffset
    rw [find?_congrAux (List.range (curr.length - L + 1))
      (q := fun j => thresholdOK (matchCount (prev.drop (prev.length - L))
        ((curr.drop j).take L)) L)]
    intro j _
    simp only [Function.comp]
    have hiff := ratio_iff_thresholdOK
      (matchCount (prev.drop (prev.length - L)) ((curr.drop j).take L)) L hL1
    cases hth : thresholdOK (matchCount (prev.drop (prev.length - L)) ((curr.drop j).take L)) L with
    | false =>
      refine decide_eq_false fun hc => ?_
      rw [matchRatio] at hc
      rw [hiff.mp hc] at hth
      exact absurd hth (by simp)
    | true =>
      refine decide_eq_true ?_
      rw [matchRatio]
      exact hiff.mpr hth
  rw [findSome?_congrAux _ hinner]
  exact findSome?_map_getD_eq_match _

/-- C1: for every pair of texts, `find_overlap_end` tokenizes both into
lowercase whitespace-delimited words and coincides with the spec-worded
resolver: scanning `L` from `min(len(prev), len(curr), 30)` down to 5, then
offsets `j` from 0 upward, it returns `j + L` for the first candidate whose
positional match ratio is at least 0.85, and 0 when no candidate with
`L ≥ 5` reaches the threshold (in particular when either text has fewer
than 5 words the candidate list is empty and the result is 0). -/
theorem find_overlap_end_eq_specOverlapResolver (prevText currText : String) :
    find_overlap_end prevText currText =
      specOverlapResolver (normWords prevText) (normWords currText) 5 :=
  findOverlapWords_eq_spec _ _ 5 (by norm_num)

/-! ### Range of the returned skip count -/

theorem findOverlapWords_zero_or_ge (prev curr : List String) (m : Nat) :
    findOverlapWords prev curr m = 0 ∨
      (m ≤ findOverlapWords prev curr m ∧ findOverlapWords prev curr m ≤ curr.length) := by
  have hEq : findOverlapWords prev curr m =
      ((descList (min (min prev.length curr.length) 30)
        (min (min prev.length curr.length) 30 + 1 - m)).findSome? fun L =>
        (findOffset (prev.drop (prev.length - L)) curr L).map (· + L)).getD 0 := rfl
  rw [hEq]
  cases hr : (descList (min (min prev.length curr.length) 30)
      (min (min prev.length curr.length) 30 + 1 - m)).findSome? fun L =>
      (findOffset (prev.drop (prev.length - L)) curr L).map (· + L) with
  | none => exact Or.inl rfl
  | some v =>
    right
    obtain ⟨L, hLmem, hLv⟩ := List.exists_of_findSome?_eq_some hr
    obtain ⟨hL1, hL2⟩ := mem_descList hLmem
    cases hj : findOffset (prev.drop (prev.length - L)) curr L with
    | none => rw [hj] at hLv; simp at hLv
    | some j =>
      rw [hj] at hLv
      simp at hLv
      have hjr : j ∈ List.range (curr.length - L + 1) := List.mem_of_find?_eq_some hj
      rw [List.mem_range] at hjr
      have hLc : L ≤ curr.length := by omega
      simp only [Option.getD_some]
      omega

/-- C10: for every pair of input texts, the skip count returned by
`find_overlap_end` is either 0 or lies between `min_overlap_words` (5 by
default) and the number of (lowercased, whitespace-delimited) words of the
current text, inclusive; hence it never exceeds `len(currWords)` and never
falls strictly between 1 and 4. -/
theorem find_overlap_end_range (prevText currText : String) :
    find_overlap_end prevText currText = 0 ∨
      (5 ≤ find_overlap_end prevText currText ∧
        find_overlap_end prevText currText ≤ (normWords currText).length) :=
  findOverlapWords_zero_or_ge (normWords prevText) (normWords currText) 5

/-! ### Behaviour on word-disjoint texts -/

theorem matchCount_disjoint : ∀ (xs ys : List String), (∀ a ∈ xs, a ∉ ys) → matchCount xs ys = 0
  | [], _, _ => rfl
  | _ :: _, [], _ => rfl
  | p :: ps, c :: cs, h => by
    have hpc : p ≠ c := fun e =>
      h p (List.mem_cons_self p ps) (e ▸ List.mem_cons_self c cs)
    simp only [matchCount, if_neg hpc, Nat.zero_add]
    exact matchCount_disjoint ps cs fun a ha hac =>
      h a (List.mem_cons_of_mem _ ha) (List.mem_cons_of_mem _ hac)

theorem findOverlapWords_eq_zero_of_disjoint (prev curr : List String) (m : Nat) (hm : 1 ≤ m)
    (h : ∀ w ∈ prev, w ∉ curr) : findOverlapWords prev curr m = 0 := by
  have hEq : findOverlapWords prev curr m =
      ((descList (min (min prev.length curr.length) 30)
        (min (min prev.length curr.length) 30 + 1 - m)).findSome? fun L =>
        (findOffset (prev.drop (prev.length - L)) curr L).map (· + L)).getD 0 := rfl
  rw [hEq]
  have hnone : ((descList (min (min prev.length curr.length) 30)
      (min (min prev.length curr.length) 30 + 1 - m)).findSome? fun L =>
      (findOffset (prev.drop (prev.length - L)) curr L).map (· + L)) = none := by
    rw [List.findSome?_eq_none_iff]
    intro L hLmem
    obtain ⟨hL1, hL2⟩ := mem_descList hLmem
    have hLpos : 0 < L := by omega
    have hoff : findOffset (prev.drop (prev.length - L)) curr L = none := by
      unfold findOffset
      rw [List.find?_eq_none]
      intro j _
      have hmc : matchCount (prev.drop (prev.length - L)) ((curr.drop j).take L) = 0 := by
        refine matchCount_disjoint _ _ fun a ha hac => ?_
        exact h a ((List.drop_sublist _ _).subset ha)
          (((List.take_sublist _ _).trans (List.drop_sublist _ _)).subset hac)
      rw [hmc]
      simp only [thresholdOK]
      simp
      omega
    rw [hoff]
    rfl
  rw [hnone]
  rfl

/-- C5 (amended): if the two window transcripts share no common lowercased
word — the generic situation when the two windows share no audio — the
overlap resolver returns skip = 0. -/
theorem find_overlap_end_disjoint_eq_zero (prevText currText : String)
    (h : ∀ w ∈ normWords prevText, w ∉ normWords currText) :
    find_overlap_end prevText currText = 0 :=
  findOverlapWords_eq_zero_of_disjoint _ _ 5 (by norm_num) h

theorem find_overlap_end_disjoint_eq_zero_witness :
    (∀ w ∈ normWords "a b c d e f", w ∉ normWords "u v w x y z") ∧
      find_overlap_end "a b c d e f" "u v w x y z" = 0 :=
  ⟨by decide, find_overlap_end_disjoint_eq_zero "a b c d e f" "u v w x y z" (by decide)⟩

/-- C5 counterexample: the adapter is opaque and may emit the same text for
two windows that share no audio; on the transcript pair
`("a b c d e", "a b c d e")` the resolver returns 5, not 0, so the claim
quantified over all transcripts of non-overlapping windows fails. -/
theorem find_overlap_end_nonzero_on_equal_texts :
    find_overlap_end "a b c d e" "a b c d e" = 5 ∧
      find_overlap_end "a b c d e" "a b c d e" ≠ 0 := by
  constructor
  · decide
  · decide

/-! ### Exact behaviour on a duplicate-free source split into overlapping halves -/

theorem matchCount_self : ∀ xs : List String, matchCount xs xs = xs.length
  | [] => rfl
  | x :: xs => by simp [matchCount, matchCount_self xs, Nat.add_comm]

theorem matchCount_eq_zero_of_get_ne :
    ∀ (xs ys : List String),
      (∀ i (h1 : i < xs.length) (h2 : i < ys.length), xs[i] ≠ ys[i]) →
      matchCount xs ys = 0
  | [], _, _ => rfl
  | _ :: _, [], _ => rfl
  | p :: ps, c :: cs, h => by
    have hpc : p ≠ c := h 0 (by simp) (by simp)
    simp only [matchCount, if_neg hpc, Nat.zero_add]
    exact matchCount_eq_zero_of_get_ne ps cs fun i h1 h2 => by
      have := h (i + 1) (by simpa using h1) (by simpa using h2)
      simpa using this

theorem slice_matchCount (ws : List String) (hnd : ws.Nodup) (p q L : Nat)
    (hp : p + L ≤ ws.length) (hq : q + L ≤ ws.length) :
    matchCount ((ws.drop p).take L) ((ws.drop q).take L) = if p = q then L else 0 := by
  by_cases hpq : p = q
  · subst hpq
    rw [if_pos rfl, matchCount_self, List.length_take, List.length_drop]
    omega
  · rw [if_neg hpq]
    refine matchCount_eq_zero_of_get_ne _ _ fun i h1 h2 hEq => ?_
    have h1' : i < L := by
      have := h1
      rw [List.length_take, List.length_drop] at this
      omega
    have h2' : i < L := by
      have := h2
      rw [List.length_take, List.length_drop] at this
      omega
    rw [List.getElem_take, List.getElem_drop, List.getElem_take, List.getElem_drop] at hEq
    have hij : p + i = q + i := (List.Nodup.getElem_inj_iff hnd).mp hEq
    exact hpq (by omega)

theorem find?_range_eq_some {p : Nat → Bool} {n j0 : Nat}
    (hj0 : j0 < n) (hp : p j0 = true) (hmin : ∀ j, j < j0 → p j = false) :
    (List.range n).find? p = some j0 := by
  rw [List.range_eq_range']
  suffices hgen : ∀ (s cnt : Nat), s ≤ j0 → j0 < s + cnt →
      (∀ j, s ≤ j → j < j0 → p j = false) → (List.range' s cnt).find? p = some j0 by
    exact hgen 0 n (Nat.zero_le _) (by omega) fun j _ hj => hmin j hj
  intro s cnt
  induction cnt generalizing s with
  | zero => omega
  | succ cnt ih =>
    intro h1 h2 h3
    rw [List.range'_succ, List.find?_cons]
    by_cases hs : s = j0
    · subst hs
      rw [hp]
    · have hps : p s = false := h3 s le_rfl (by omega)
      rw [hps]
      exact ih (s + 1) (by omega) (by omega) fun j hj1 hj2 => h3 j (by omega) hj2

theorem findOffset_split (ws : List String) (a b L : Nat) (hnd : ws.Nodup)
    (hab : a ≤ b) (hb : b ≤ ws.length) (hL1 : 1 ≤ L) (hLb : L ≤ b)
    (hLa : L ≤ ws.length - a) :
    findOffset ((ws.take b).drop ((ws.take b).length - L)) (ws.drop a) L =
      if L ≤ b - a then some (b - a - L) else none := by
  have hPlen : (ws.take b).length = b := by
    rw [List.length_take]
    omega
  have hprevEnd : (ws.take b).drop ((ws.take b).length - L) = (ws.drop (b - L)).take L := by
    rw [hPlen, List.drop_take]
    congr 1
    omega
  rw [hprevEnd]
  unfold findOffset
  have hClen : (ws.drop a).length = ws.length - a := by simp
  rw [hClen]
  have hpred : ∀ j, j ≤ ws.length - a - L →
      (thresholdOK (matchCount ((ws.drop (b - L)).take L) (((ws.drop a).drop j).take L)) L
        = decide (b - L = a + j)) := by
    intro j hj
    rw [List.drop_drop]
    rw [slice_matchCount ws hnd (b - L) (a + j) L (by omega) (by omega)]
    by_cases he : b - L = a + j
    · rw [if_pos he, decide_eq_true he]
      simp only [thresholdOK]
      exact decide_eq_true (by omega)
    · rw [if_neg he, decide_eq_false he]
      simp only [thresholdOK]
      exact decide_eq_false (by omega)
  by_cases hcase : L ≤ b - a
  · rw [if_pos hcase]
    refine find?_range_eq_some (by omega) ?_ ?_
    · rw [hpred (b - a - L) (by omega)]
      exact decide_eq_true (by omega)
    · intro j hj
      rw [hpred j (by omega)]
      exact decide_eq_false (by omega)
  · rw [if_neg hcase, List.find?_eq_none]
    intro j hjmem
    rw [List.mem_range] at hjmem
    rw [hpred j (by omega)]
    simp only [decide_eq_true_eq]
    omega

theorem findSome?_descList_eq {f : Nat → Option Nat} {v : Nat} :
    ∀ (n hi t : Nat), t ≤ hi → hi < t + n → f t = some v →
      (∀ L, t < L → L ≤ hi → f L = none) →
      (descList hi n).findSome? f = some v
  | 0, hi, t, h1, h2, _, _ => absurd h2 (by omega)
  | n + 1, hi, t, h1, h2, hft, hnone => by
    show (hi :: descList (hi - 1) n).findSome? f = some v
    rw [List.findSome?_cons]
    by_cases hth : t = hi
    · subst hth
      rw [hft]
    · rw [hnone hi (by omega) le_rfl]
      exact findSome?_descList_eq n (hi - 1) t (by omega) (by omega) hft
        fun L hL1 hL2 => hnone L hL1 (by omega)

theorem findOverlapWords_split (ws : List String) (a b : Nat) (hnd : ws.Nodup)
    (hab : a ≤ b) (hb : b ≤ ws.length) (hk : a = b ∨ 5 ≤ b - a) :
    findOverlapWords (ws.take b) (ws.drop a) 5 = b - a := by
  have hPlen : (ws.take b).length = b := by
    rw [List.length_take]
    omega
  have hClen : (ws.drop a).length = ws.length - a := by simp
  have hEq : findOverlapWords (ws.take b) (ws.drop a) 5 =
      ((descList (min (min b (ws.length - a)) 30)
        (min (min b (ws.length - a)) 30 + 1 - 5)).findSome? fun L =>
        (findOffset ((ws.take b).drop ((ws.take b).length - L)) (ws.drop a) L).map
          (· + L)).getD 0 := by
    unfold findOverlapWords
    rw [hPlen, hClen]
  rw [hEq]
  rcases hk with rfl | hklarge
  · have hnone : ((descList (min (min a (ws.length - a)) 30)
        (min (min a (ws.length - a)) 30 + 1 - 5)).findSome? fun L =>
        (findOffset ((ws.take a).drop ((ws.take a).length - L)) (ws.drop a) L).map
          (· + L)) = none := by
      rw [List.findSome?_eq_none_iff]
      intro L hLmem
      obtain ⟨hL1, hL2⟩ := mem_descList hLmem
      have h5L : 5 ≤ L := by omega
      rw [findOffset_split ws a a L hnd le_rfl hb (by omega) (by omega) (by omega)]
      rw [if_neg (by omega)]
      rfl
    rw [hnone]
    simp
  · set maxL := min (min b (ws.length - a)) 30 with hmaxL
    have hmaxL5 : 5 ≤ maxL := by omega
    set t := min (b - a) maxL with ht
    have hsome : ((descList maxL (maxL + 1 - 5)).findSome? fun L =>
        (findOffset ((ws.take b).drop ((ws.take b).length - L)) (ws.drop a) L).map
          (· + L)) = some (b - a) := by
      refine findSome?_descList_eq (maxL + 1 - 5) maxL t (by omega) (by omega) ?_ ?_
      · rw [findOffset_split ws a b t hnd hab hb (by omega) (by omega) (by omega)]
        rw [if_pos (by omega)]
        simp only [Option.map_some']
        congr 1
        omega
      · intro L hL1 hL2
        rw [findOffset_split ws a b L hnd hab hb (by omega) (by omega) (by omega)]
        rw [if_neg (by omega)]
        rfl
    rw [hsome]
    rfl

/-- C2 (amended): for every source word sequence with pairwise-distinct words
split into two overlapping halves `prevWords = ws[:b]` and
`currWords = ws[a:]` whose shared region `ws[a:b]` is either empty or at
least `MIN_OVERLAP_WORDS = 5` words long, the skip count returned by the
overlap resolver reconstructs the source:
`prevWords ++ currWords[skip:] = ws`. -/
theorem overlap_split_round_trip (ws : List String) (a b : Nat) (hnd : ws.Nodup)
    (hab : a ≤ b) (hb : b ≤ ws.length) (hk : a = b ∨ 5 ≤ b - a) :
    ws.take b ++ (ws.drop a).drop (findOverlapWords (ws.take b) (ws.drop a) 5) = ws := by
  rw [findOverlapWords_split ws a b hnd hab hb hk, List.drop_drop]
  rw [show a + (b - a) = b by omega]
  exact List.take_append_drop b ws

theorem overlap_split_round_trip_witness :
    (["a", "b", "c", "d", "e", "f", "g", "h"] : List String).Nodup ∧
      (["a", "b", "c", "d", "e", "f", "g", "h"] : List String).take 7 ++
        ((["a", "b", "c", "d", "e", "f", "g", "h"] : List String).drop 2).drop
          (findOverlapWords ((["a", "b", "c", "d", "e", "f", "g", "h"] : List String).take 7)
            ((["a", "b", "c", "d", "e", "f", "g", "h"] : List String).drop 2) 5) =
        ["a", "b", "c", "d", "e", "f", "g", "h"] :=
  ⟨by decide, overlap_split_round_trip ["a", "b", "c", "d", "e", "f", "g", "h"] 2 7
    (by decide) (by norm_num) (by norm_num) (Or.inr (by norm_num))⟩

/-- C2 counterexample: split the duplicate-free six-word source
`a b c d e f` into halves `a b c d e` and `c d e f` sharing three words —
fewer than `MIN_OVERLAP_WORDS = 5` — so the resolver returns skip = 0 and
re-joining duplicates the shared words instead of reconstructing the
source. -/
theorem overlap_split_round_trip_cex :
    findOverlapWords ((["a", "b", "c", "d", "e", "f"] : List String).take 5)
        ((["a", "b", "c", "d", "e", "f"] : List String).drop 2) 5 = 0 ∧
      ¬ ((["a", "b", "c", "d", "e", "f"] : List String).take 5 ++
          ((["a", "b", "c", "d", "e", "f"] : List String).drop 2).drop
            (findOverlapWords ((["a", "b", "c", "d", "e", "f"] : List String).take 5)
              ((["a", "b", "c", "d", "e", "f"] : List String).drop 2) 5) =
          ["a", "b", "c", "d", "e", "f"]) := by
  constructor
  · decide
  · decide

/-! ### Segment assembly (src/scripts/transcription/chapterbatch.py lines 312-355) -/

/-- `WINDOW_SIZE_SECONDS = 30` (src/scripts/transcription/chapterbatch.py
line 23), as an exact rational. -/
def WINDOW_SIZE_SECONDS : ℚ := 30

/-- One canonical transcript segment, `{"start": …, "end": …, "text": …}`.
The JSON field `end` is called `stop` here because `end` is a Lean keyword. -/
structure Segment where
  start : ℚ
  stop : ℚ
  text : String
deriving DecidableEq

/-- The per-window loop of the segment assembler
(src/scripts/transcription/chapterbatch.py lines 318-355), carrying the
previous window's raw text, the open segment's start and text, and the
emitted segments.  The source stores `current_segment_text = new_text.strip()`
at a boundary; since Python's `strip` is idempotent and every later use of
`current_segment_text` strips it again, we keep the raw joined text and
strip at every use site, which yields identical observable values. -/
def assembleGo (prevText : String) (curStart : ℚ) (curText : String)
    (acc : List Segment) : List (ℚ × String) → List Segment
  | [] =>
    if pyStrip curText = "" then acc
    else acc ++ [⟨curStart, curStart + WINDOW_SIZE_SECONDS, pyStrip curText⟩]
  | (t, text) :: rest =>
    if find_overlap_end prevText text < (pySplit text).length then
      if pyStrip (joinWords ((pySplit text).drop (find_overlap_end prevText text))) = "" then
        assembleGo text curStart curText acc rest
      else
        assembleGo text t (joinWords ((pySplit text).drop (find_overlap_end prevText text)))
          (if pyStrip curText = "" then acc else acc ++ [⟨curStart, t, pyStrip curText⟩]) rest
    else assembleGo text curStart curText acc rest

/-- Segment assembly of `transcribe_all_chapters`
(src/scripts/transcription/chapterbatch.py lines 312-355): the input is the
ordered list of (window start time, raw window transcript) pairs; the first
window seeds the open segment, later windows are overlap-trimmed via
`find_overlap_end` and close/open segments at boundaries; after the last
window, the open segment is closed at `start + WINDOW_SIZE_SECONDS`. -/
def assembleSegments : List (ℚ × String) → List Segment
  | [] => []
  | (t0, text0) :: rest => assembleGo text0 t0 text0 [] rest

theorem assembleGo_invariant :
    ∀ (rest : List (ℚ × String)) (prevText curText : String) (curStart : ℚ)
      (acc : List Segment),
      (rest.map Prod.fst).Pairwise (· < ·) →
      (∀ p ∈ rest, curStart < p.1) →
      (∀ s ∈ acc, s.text ≠ "") →
      (∀ s ∈ acc, s.start < s.stop) →
      acc.Pairwise (fun u v => u.start < v.start) →
      (∀ s ∈ acc, s.start < curStart) →
      (acc ≠ [] → pyStrip curText ≠ "") →
      (∀ s ∈ assembleGo prevText curStart curText acc rest, s.text ≠ "") ∧
        (∀ s ∈ assembleGo prevText curStart curText acc rest, s.start < s.stop) ∧
        (assembleGo prevText curStart curText acc rest).Pairwise
          (fun u v => u.start < v.start) ∧
        (∀ s, (assembleGo prevText curStart curText acc rest).getLast? = some s →
          s.stop = s.start + WINDOW_SIZE_SECONDS)
  | [], prevText, curText, curStart, acc, _, _, hacc1, hacc2, hacc3, hacc4, hacc5 => by
    by_cases hstrip : pyStrip curText = ""
    · have haccnil : acc = [] := by
        by_contra hne
        exact hacc5 hne hstrip
      subst haccnil
      simp [assembleGo, hstrip]
    · have hres : assembleGo prevText curStart curText acc [] =
          acc ++ [⟨curStart, curStart + WINDOW_SIZE_SECONDS, pyStrip curText⟩] := by
        simp [assembleGo, hstrip]
      rw [hres]
      refine ⟨?_, ?_, ?_, ?_⟩
      · intro s hs
        rcases List.mem_append.mp hs with h | h
        · exact hacc1 s h
        · rw [List.mem_singleton.mp h]
          exact hstrip
      · intro s hs
        rcases List.mem_append.mp hs with h | h
        · exact hacc2 s h
        · rw [List.mem_singleton.mp h]
          show curStart < curStart + WINDOW_SIZE_SECONDS
          have : (0 : ℚ) < WINDOW_SIZE_SECONDS := by norm_num [WINDOW_SIZE_SECONDS]
          linarith
      · rw [List.pairwise_append]
        refine ⟨hacc3, List.pairwise_singleton _ _, ?_⟩
        intro u hu v hv
        rw [List.mem_singleton.mp hv]
        exact hacc4 u hu
      · intro s hs
        rw [List.getLast?_concat] at hs
        rw [← Option.some.injEq _ _ |>.mp hs]
  | (t, text) :: rest, prevText, curText, curStart, acc,
      hmono, hlt, hacc1, hacc2, hacc3, hacc4, hacc5 => by
    have hmono0 : ((t, text).1 :: rest.map Prod.fst).Pairwise (· < ·) := by
      simpa using hmono
    have hmono' : (rest.map Prod.fst).Pairwise (· < ·) := (List.pairwise_cons.mp hmono0).2
    have hhead : ∀ x ∈ rest.map Prod.fst, t < x := (List.pairwise_cons.mp hmono0).1
    have hltt : curStart < t := hlt (t, text) (List.mem_cons_self _ _)
    have hltrest : ∀ p ∈ rest, t < p.1 := fun p hp => hhead p.1 (List.mem_map_of_mem _ hp)
    have hlt' : ∀ p ∈ rest, curStart < p.1 := fun p hp => hlt p (List.mem_cons_of_mem _ hp)
    by_cases h1 : find_overlap_end prevText text < (pySplit text).length
    · by_cases h2 : pyStrip (joinWords ((pySplit text).drop (find_overlap_end prevText text))) = ""
      · have hres : assembleGo prevText curStart curText acc ((t, text) :: rest) =
            assembleGo text curStart curText acc rest := by
          simp [assembleGo, h1, h2]
        rw [hres]
        exact assembleGo_invariant rest text curText curStart acc
          hmono' hlt' hacc1 hacc2 hacc3 hacc4 hacc5
      · have hres : assembleGo prevText curStart curText acc ((t, text) :: rest) =
            assembleGo text t (joinWords ((pySplit text).drop (find_overlap_end prevText text)))
              (if pyStrip curText = "" then acc else acc ++ [⟨curStart, t, pyStrip curText⟩])
              rest := by
          simp [assembleGo, h1, h2]
        rw [hres]
        refine assembleGo_invariant rest text _ t _ hmono' hltrest ?_ ?_ ?_ ?_ ?_
        · intro s hs
          by_cases hc : pyStrip curText = ""
          · rw [if_pos hc] at hs
            exact hacc1 s hs
          · rw [if_neg hc] at hs
            rcases List.mem_append.mp hs with h | h
            · exact hacc1 s h
            · rw [List.mem_singleton.mp h]
              exact hc
        · intro s hs
          by_cases hc : pyStrip curText = ""
          · rw [if_pos hc] at hs
            exact hacc2 s hs
          · rw [if_neg hc] at hs
            rcases List.mem_append.mp hs with h | h
            · exact hacc2 s h
            · rw [List.mem_singleton.mp h]
              exact hltt
        · by_cases hc : pyStrip curText = ""
          · rw [if_pos hc]
            exact hacc3
          · rw [if_neg hc]
            rw [List.pairwise_append]
            refine ⟨hacc3, List.pairwise_singleton _ _, ?_⟩
            intro u hu v hv
            rw [List.mem_singleton.mp hv]
            exact hacc4 u hu
        · intro s hs
          by_cases hc : pyStrip curText = ""
          · rw [if_pos hc] at hs
            exact lt_trans (hacc4 s hs) hltt
          · rw [if_neg hc] at hs
            rcases List.mem_append.mp hs with h | h
            · exact lt_trans (hacc4 s h) hltt
            · rw [List.mem_singleton.mp h]
              exact hltt
        · intro _
          exact h2
    · have hres : assembleGo prevText curStart curText acc ((t, text) :: rest) =
          assembleGo text curStart curText acc rest := by
        simp [assembleGo, h1]
      rw [hres]
      exact assembleGo_invariant rest text curText curStart acc
        hmono' hlt' hacc1 hacc2 hacc3 hacc4 hacc5

/-- C3: for every list of per-window transcripts with strictly increasing
window start times, the segment assembler produces segments with non-empty
text, `start_s < end_s`, non-decreasing `start_s` order, and a final segment
closed at its own `start_s` plus the window size. -/
theorem assembleSegments_invariants (ws : List (ℚ × String))
    (hmono : (ws.map Prod.fst).Pairwise (· < ·)) :
    (∀ s ∈ assembleSegments ws, s.text ≠ "") ∧
      (∀ s ∈ assembleSegments ws, s.start < s.stop) ∧
      (assembleSegments ws).Pairwise (fun u v => u.start ≤ v.start) ∧
      (∀ s, (assembleSegments ws).getLast? = some s →
        s.stop = s.start + WINDOW_SIZE_SECONDS) := by
  match ws with
  | [] => exact ⟨by simp [assembleSegments], by simp [assembleSegments],
      by simp [assembleSegments], by simp [assembleSegments]⟩
  | (t0, text0) :: rest =>
    have hmono0 : ((t0, text0).1 :: rest.map Prod.fst).Pairwise (· < ·) := by
      simpa using hmono
    have h := assembleGo_invariant rest text0 text0 t0 []
      (List.pairwise_cons.mp hmono0).2
      (fun p hp => (List.pairwise_cons.mp hmono0).1 p.1 (List.mem_map_of_mem _ hp))
      (by simp) (by simp) (by simp) (by simp) (by simp)
    exact ⟨h.1, h.2.1, h.2.2.1.imp le_of_lt, h.2.2.2⟩

theorem assembleSegments_invariants_witness :
    (([((0 : ℚ), "a b c d e f"), ((5 : ℚ), "b c d e f g")].map Prod.fst).Pairwise (· < ·)) ∧
      ((∀ s ∈ assembleSegments [((0 : ℚ), "a b c d e f"), ((5 : ℚ), "b c d e f g")],
          s.text ≠ "") ∧
        (∀ s ∈ assembleSegments [((0 : ℚ), "a b c d e f"), ((5 : ℚ), "b c d e f g")],
          s.start < s.stop) ∧
        (assembleSegments [((0 : ℚ), "a b c d e f"), ((5 : ℚ), "b c d e f g")]).Pairwise
          (fun u v => u.start ≤ v.start) ∧
        (∀ s, (assembleSegments
            [((0 : ℚ), "a b c d e f"), ((5 : ℚ), "b c d e f g")]).getLast? = some s →
          s.stop = s.start + WINDOW_SIZE_SECONDS)) :=
  ⟨by decide, assembleSegments_invariants _ (by decide)⟩

/-- C4 (amended): for every list of per-window transcripts with strictly
increasing window start times, no two produced segments coincide — their
`start_s` values are strictly increasing, hence pairwise distinct — but two
segments may carry identical text when the window transcripts themselves
repeat content. -/
theorem assembleSegments_pairwise_distinct (ws : List (ℚ × String))
    (hmono : (ws.map Prod.fst).Pairwise (· < ·)) :
    (assembleSegments ws).Pairwise (fun u v => u.start < v.start ∧ u ≠ v) := by
  match ws with
  | [] => simp [assembleSegments]
  | (t0, text0) :: rest =>
    have hmono0 : ((t0, text0).1 :: rest.map Prod.fst).Pairwise (· < ·) := by
      simpa using hmono
    have h := assembleGo_invariant rest text0 text0 t0 []
      (List.pairwise_cons.mp hmono0).2
      (fun p hp => (List.pairwise_cons.mp hmono0).1 p.1 (List.mem_map_of_mem _ hp))
      (by simp) (by simp) (by simp) (by simp) (by simp)
    refine h.2.2.1.imp fun hlt => ⟨hlt, fun he => ?_⟩
    rw [he] at hlt
    exact lt_irrefl _ hlt

theorem assembleSegments_pairwise_distinct_witness :
    (([((0 : ℚ), "p q r s t u"), ((7 : ℚ), "q r s t u v")].map Prod.fst).Pairwise (· < ·)) ∧
      (assembleSegments [((0 : ℚ), "p q r s t u"), ((7 : ℚ), "q r s t u v")]).Pairwise
        (fun u v => u.start < v.start ∧ u ≠ v) :=
  ⟨by decide, assembleSegments_pairwise_distinct _ (by decide)⟩

/-- C4 counterexample: on window transcripts `(0.0, "a b c d e")` and
`(5.0, "a b c d e a b c d e")` — strictly increasing start times — the
assembler emits exactly two segments and both carry the identical text
`"a b c d e"`, so the claim that no two segments share identical text
fails. -/
theorem assembleSegments_duplicate_text_cex :
    (assembleSegments [((0 : ℚ), "a b c d e"), ((5 : ℚ), "a b c d e a b c d e")]).map
        Segment.text = ["a b c d e", "a b c d e"] ∧
      ¬ (assembleSegments
          [((0 : ℚ), "a b c d e"), ((5 : ℚ), "a b c d e a b c d e")]).Pairwise
          (fun u v => u.text ≠ v.text) := by
  constructor
  · decide
  · decide

/-! ### Punctuation reconstruction (src/transcribe.py lines 33-96) -/

/-- `words[i+1][0].isupper()` guarded by existence checks
(src/transcribe.py line 67), applied to the remaining words after the
current one. -/
def nextWordCapitalized : List String → Bool
  | [] => false
  | nw :: _ =>
    match nw.data with
    | [] => false
    | c :: _ => c.isUpper

/-- The sentence-splitting loop (src/transcribe.py lines 62-75): words are
appended to the current sentence; after appending, a boundary is emitted when
(last word or next word capitalized) and the current sentence has more than
2 words; leftover words form a final sentence. -/
def splitSentencesGo (cur : List String) : List String → List String
  | [] => if cur.isEmpty then [] else [joinWords cur]
  | w :: rest =>
    if (rest.isEmpty || nextWordCapitalized rest) && decide (2 < (cur ++ [w]).length) then
      joinWords (cur ++ [w]) :: splitSentencesGo [] rest
    else
      splitSentencesGo (cur ++ [w]) rest

/-- Sentence splitting of a content block (src/transcribe.py lines 60-75). -/
def splitSentences (ws : List String) : List String :=
  splitSentencesGo [] ws

/-- Python `sent.endswith(('.', '?', '!', ',', ':', ';'))`
(src/transcribe.py line 83). -/
def pyEndsWithPunct (s : String) : Bool :=
  match s.data.getLast? with
  | some c => c = '.' || c = '?' || c = '!' || c = ',' || c = ':' || c = ';'
  | none => false

/-- `sent += '.'` when terminal punctuation is missing
(src/transcribe.py lines 83-84). -/
def addPeriod (s : String) : String :=
  if pyEndsWithPunct s then s else s ++ "."

/-- `sent = sent[0].upper() + sent[1:]` when the first character is
lowercase (src/transcribe.py lines 86-87); empty strings pass through. -/
def capFirst (s : String) : String :=
  match s.data with
  | [] => s
  | c :: cs => if c.isLower then String.mk (Char.toUpper c :: cs) else s

/-- Per-sentence formatting (src/transcribe.py lines 79-88): strip, append a
period when terminal punctuation is missing, capitalize a lowercase first
letter. -/
def formatSentence (sent : String) : String :=
  capFirst (addPeriod (pyStrip sent))

/-- Timestamp extraction per line (src/transcribe.py lines 43-54). -/
def extractTimestamp (line : String) : String × String :=
  if (pyStrip line).data.head? = some '[' then
    match pyFind line.data ']' with
    | some i => (String.mk (line.data.take (i + 1)), pyStrip (String.mk (line.data.drop (i + 1))))
    | none => ("", pyStrip line)
  else ("", pyStrip line)

/-- One line of `format_text_with_punctuation` (src/transcribe.py lines
43-94); `none` when the line's content is empty (the line is skipped). -/
def formatLine (line : String) : Option String :=
  match extractTimestamp line with
  | (timestamp, content) =>
    if content = "" then none
    else
      some (if timestamp = "" then
          joinWords ((splitSentences (pySplit content)).filterMap fun sent =>
            if pyStrip sent = "" then none else some (formatSentence sent))
        else
          timestamp ++ " " ++
            joinWords ((splitSentences (pySplit content)).filterMap fun sent =>
              if pyStrip sent = "" then none else some (formatSentence sent)))

/-- Python `text.split('\n')` (keeps empty pieces). -/
def splitOnNLGo : List Char → List Char → List String
  | cur, [] => [String.mk cur.reverse]
  | cur, c :: cs =>
    if c = '\n' then String.mk cur.reverse :: splitOnNLGo [] cs
    else splitOnNLGo (c :: cur) cs

/-- Python `text.split('\n')`. -/
def splitOnNL (s : String) : List String :=
  splitOnNLGo [] s.data

/-- `format_text_with_punctuation(text)` (src/transcribe.py lines 33-96,
identical copy in src/scripts/transcription/chapterbatch.py lines 34-97). -/
def format_text_with_punctuation (text : String) : String :=
  joinNL ((splitOnNL text).filterMap formatLine)

/-- Follows the spec's words (§4.4): a word "starts with an uppercase
letter". -/
def specStartsUpper (w : String) : Bool :=
  match w.data with
  | [] => false
  | c :: _ => c.isUpper

/-- Follows the spec's words (§4.4): scanning word indexes `i`, a sentence
boundary is declared after word `i` exactly when `i` is the last index
overall or word `i + 1` starts with an uppercase letter, provided the
sentence open since index `start` has accumulated more than 2 words;
leftover words after the last boundary form a final sentence. -/
def specSplitFrom (ws : List String) (start i : Nat) : List String :=
  if h : i < ws.length then
    if (decide (i = ws.length - 1) || specStartsUpper (ws.getD (i + 1) "")) &&
        decide (2 < i + 1 - start) then
      joinWords ((ws.drop start).take (i + 1 - start)) :: specSplitFrom ws (i + 1) (i + 1)
    else specSplitFrom ws start (i + 1)
  else if start < ws.length then [joinWords (ws.drop start)] else []
termination_by ws.length - i

theorem splitSentencesGo_eq_spec (ws : List String) :
    ∀ (n i start : Nat), ws.length - i = n → start ≤ i → i ≤ ws.length →
      splitSentencesGo ((ws.drop start).take (i - start)) (ws.drop i) =
        specSplitFrom ws start i
  | 0, i, start, hn, h1, h2 => by
    have hi : i = ws.length := by omega
    subst hi
    rw [List.drop_length, specSplitFrom, dif_neg (by omega)]
    have htake : (ws.drop start).take (ws.length - start) = ws.drop start :=
      List.take_of_length_le (by simp)
    rw [htake]
    by_cases hs : start < ws.length
    · rw [if_pos hs]
      have hne : ws.drop start ≠ [] := by
        intro hcon
        have := congrArg List.length hcon
        simp at this
        omega
      rw [show splitSentencesGo (ws.drop start) [] =
          (if (ws.drop start).isEmpty then [] else [joinWords (ws.drop start)]) from rfl]
      rw [if_neg (by simpa [List.isEmpty_iff] using hne)]
    · rw [if_neg hs]
      rw [List.drop_eq_nil_of_le (by omega)]
      rfl
  | n + 1, i, start, hn, h1, h2 => by
    have hi : i < ws.length := by omega
    have hlen : (((ws.drop start).take (i - start)) ++ [ws[i]]).length = i + 1 - start := by
      rw [List.length_append, List.length_take, List.length_drop]
      simp only [List.length_singleton]
      omega
    have hcur : (ws.drop start).take (i - start) ++ [ws[i]] =
        (ws.drop start).take (i + 1 - start) := by
      rw [show i + 1 - start = (i - start) + 1 by omega, List.take_succ]
      congr 1
      rw [List.getElem?_drop, show start + (i - start) = i by omega,
        List.getElem?_eq_getElem hi]
      rfl
    have hemp : (ws.drop (i + 1)).isEmpty = decide (i = ws.length - 1) := by
      by_cases he : i = ws.length - 1
      · rw [List.drop_eq_nil_of_le (by omega), decide_eq_true he]
        rfl
      · rw [List.drop_eq_getElem_cons (show i + 1 < ws.length by omega),
          decide_eq_false he]
        rfl
    have hcap : nextWordCapitalized (ws.drop (i + 1)) =
        specStartsUpper (ws.getD (i + 1) "") := by
      by_cases hlt2 : i + 1 < ws.length
      · rw [List.drop_eq_getElem_cons hlt2, List.getD_eq_getElem?_getD,
          List.getElem?_eq_getElem hlt2]
        rfl
      · rw [List.drop_eq_nil_of_le (by omega), List.getD_eq_getElem?_getD,
          List.getElem?_eq_none (by omega)]
        rfl
    rw [List.drop_eq_getElem_cons hi, specSplitFrom, dif_pos hi]
    rw [show splitSentencesGo ((ws.drop start).take (i - start)) (ws[i] :: ws.drop (i + 1)) =
        (if ((ws.drop (i + 1)).isEmpty || nextWordCapitalized (ws.drop (i + 1))) &&
            decide (2 < (((ws.drop start).take (i - start)) ++ [ws[i]]).length) then
          joinWords ((ws.drop start).take (i - start) ++ [ws[i]]) ::
            splitSentencesGo [] (ws.drop (i + 1))
        else splitSentencesGo ((ws.drop start).take (i - start) ++ [ws[i]]) (ws.drop (i + 1)))
      from rfl]
    rw [hemp, hcap, hlen]
    by_cases hcond : ((decide (i = ws.length - 1) || specStartsUpper (ws.getD (i + 1) "")) &&
        decide (2 < i + 1 - start)) = true
    · rw [if_pos hcond, if_pos hcond, hcur]
      congr 1
      have := splitSentencesGo_eq_spec ws n (i + 1) (i + 1) (by omega) le_rfl (by omega)
      simpa using this
    · rw [if_neg hcond, if_neg hcond, hcur]
      exact splitSentencesGo_eq_spec ws n (i + 1) start (by omega) (by omega) (by omega)

/-- C8: the sentence splitter of `format_text_with_punctuation` declares a
boundary after the current word exactly when it is the last word overall or
the next word starts with an uppercase letter, provided the current sentence
has accumulated more than 2 words (spec-worded index scan `specSplitFrom`);
each sentence is then trimmed, gets a period appended when it does not end
in one of `. ? ! , : ;`, and has a lowercase first character uppercased; in
particular on `"the cat sat The dog ran"` the two sentences are
`"The cat sat."` and `"The dog ran."`. -/
theorem format_text_with_punctuation_spec :
    (∀ ws : List String, splitSentences ws = specSplitFrom ws 0 0) ∧
      (∀ sent : String, formatSentence sent = capFirst (addPeriod (pyStrip sent))) ∧
      (splitSentences (pySplit "the cat sat The dog ran")).map formatSentence =
        ["The cat sat.", "The dog ran."] ∧
      format_text_with_punctuation "the cat sat The dog ran" =
        "The cat sat. The dog ran." := by
  refine ⟨fun ws => ?_, fun sent => rfl, by decide, by decide⟩
  have := splitSentencesGo_eq_spec ws (ws.length) 0 0 (by omega) le_rfl (by omega)
  simpa [splitSentences] using this

/-! ### Timestamp formatting and JSON-to-text rendering -/

/-- Python float `a % b` for `b ≠ 0`: `a - b * ⌊a / b⌋` (sign follows the
divisor), floats modelled by exact rationals. -/
def pyMod (a b : ℚ) : ℚ :=
  a - b * ⌊a / b⌋

/-- Python `f"{n:02d}"`: left-pad the decimal rendering to width 2 with
`0`. -/
def pad2 (n : ℤ) : String :=
  if (toString n).length < 2 then "0" ++ toString n else toString n

/-- `format_timestamp(seconds)` (src/transcribe.py lines 26-31, identical
copy in src/scripts/transcription/chapterbatch.py lines 27-32):
`int(seconds // 3600)`, `int((seconds % 3600) // 60)` and `int(seconds % 60)`
zero-padded to 2 digits each; `//` is float floor-division, `%` yields a
value in `[0, modulus)`, so each `int(...)` truncation coincides with the
floor taken here. -/
def format_timestamp (seconds : ℚ) : String :=
  pad2 ⌊seconds / 3600⌋ ++ ":" ++ pad2 ⌊pyMod seconds 3600 / 60⌋ ++ ":" ++
    pad2 ⌊pyMod seconds 60⌋

/-- Python `text.split("] ", 1)[1]` when the separator occurs: drop through
the first occurrence of `"] "`. -/
def dropThroughBracket : List Char → Option (List Char)
  | [] => none
  | ']' :: ' ' :: rest => some rest
  | _ :: rest => dropThroughBracket rest

/-- `text.split("] ", 1)[1] if "] " in text else text`
(src/scripts/transcription/chapterbatch.py lines 243-244). -/
def afterTimestampMarker (text : String) : String :=
  match dropThroughBracket text.data with
  | some rest => String.mk rest
  | none => text

/-- The per-segment loop of `json_to_formatted_text`
(src/scripts/transcription/chapterbatch.py lines 235-249), producing the
`lines` list. -/
def jsonLinesGo (includeTimestamps applyPunctuation : Bool) : List Segment → List String
  | [] => []
  | seg :: rest =>
    (if includeTimestamps then
        "[" ++ format_timestamp seg.start ++ "] " ++
          (if applyPunctuation then
            afterTimestampMarker (format_text_with_punctuation
              ("[" ++ format_timestamp seg.start ++ "] " ++ seg.text))
          else seg.text)
      else
        (if applyPunctuation then
          afterTimestampMarker (format_text_with_punctuation
            ("[" ++ format_timestamp seg.start ++ "] " ++ seg.text))
        else seg.text)) :: jsonLinesGo includeTimestamps applyPunctuation rest

/-- `json_to_formatted_text(json_data, include_timestamps, apply_punctuation)`
(src/scripts/transcription/chapterbatch.py lines 233-251): one line per
segment, joined with newlines. -/
def json_to_formatted_text (segments : List Segment)
    (includeTimestamps applyPunctuation : Bool) : String :=
  joinNL (jsonLinesGo includeTimestamps applyPunctuation segments)

/-- C9: with timestamps on and punctuation off — the variant the batch
driver uses to derive the transcript rendering — `json_to_formatted_text`
emits one line `[HH:MM:SS] text` per segment, where `HH:MM:SS` comes from
integer division of the segment's `start_s` (hours = ⌊s/3600⌋, minutes =
⌊(s mod 3600)/60⌋, seconds = ⌊s mod 60⌋, each zero-padded to 2 digits); in
particular `format_timestamp 0 = "00:00:00"` and
`format_timestamp 3661 = "01:01:01"`. -/
theorem json_to_formatted_text_timestamped :
    (∀ segments : List Segment,
      json_to_formatted_text segments true false =
        joinNL (segments.map fun seg =>
          "[" ++ format_timestamp seg.start ++ "] " ++ seg.text)) ∧
      (∀ s : ℚ, format_timestamp s =
        pad2 ⌊s / 3600⌋ ++ ":" ++ pad2 ⌊pyMod s 3600 / 60⌋ ++ ":" ++
          pad2 ⌊pyMod s 60⌋) ∧
      format_timestamp 0 = "00:00:00" ∧ format_timestamp 3661 = "01:01:01" := by
  refine ⟨fun segments => ?_, fun s => rfl, ?_, ?_⟩
  · rw [json_to_formatted_text]
    congr 1
    induction segments with
    | nil => rfl
    | cons seg rest ih =>
      rw [List.map_cons]
      rw [show jsonLinesGo true false (seg :: rest) =
          ("[" ++ format_timestamp seg.start ++ "] " ++ seg.text) ::
            jsonLinesGo true false rest from rfl]
      rw [ih]
  · have h1 : ⌊(0 : ℚ) / 3600⌋ = 0 := by norm_num
    have h2 : ⌊pyMod (0 : ℚ) 3600 / 60⌋ = 0 := by
      rw [pyMod, h1]
      norm_num
    have h3 : ⌊pyMod (0 : ℚ) 60⌋ = 0 := by
      rw [pyMod]
      norm_num
    rw [format_timestamp, h1, h2, h3]
    rfl
  · have h1 : ⌊(3661 : ℚ) / 3600⌋ = 1 := by
      rw [Int.floor_eq_iff]
      norm_num
    have h0 : ⌊(3661 : ℚ) / 60⌋ = 61 := by
      rw [Int.floor_eq_iff]
      norm_num
    have h2 : ⌊pyMod (3661 : ℚ) 3600 / 60⌋ = 1 := by
      rw [pyMod, h1]
      rw [show ((3661 : ℚ) - 3600 * ((1 : ℤ) : ℚ)) = 61 by norm_num]
      rw [Int.floor_eq_iff]
      norm_num
    have h3 : ⌊pyMod (3661 : ℚ) 60⌋ = 1 := by
      rw [pyMod, h0]
      rw [show ((3661 : ℚ) - 60 * ((61 : ℤ) : ℚ)) = 1 by norm_num]
      norm_num
    rw [format_timestamp, h1, h2, h3]
    rfl

/-! ### Batch driver (src/scripts/transcription/chapterbatch.py lines 253-399) -/

/-- Observable side effects of one batch run: transcription-adapter calls
(`model.generate` per window, line 307) and file writes, identified by the
audio file name and the output suffix appended to its path. -/
inductive Event where
  | call (file : String) (window : Nat)
  | write (file : String) (suffix : String)
deriving DecidableEq

/-- The audio file name an event concerns. -/
def Event.file : Event → String
  | .call f _ => f
  | .write f _ => f

/-- One audio file of the batch: its name and its window (chunk) count. -/
structure BatchFile where
  name : String
  numWindows : Nat
deriving DecidableEq

/-- The per-window transcription loop
(src/scripts/transcription/chapterbatch.py lines 302-310): the adapter is
called once per window in order; `none` models the external call raising,
which aborts immediately (the source has no try/except).  Returns the
emitted events and whether every window succeeded. -/
def runWindows (adapter : String → Nat → Option String) (file : String) :
    List Nat → List Event × Bool
  | [] => ([], true)
  | w :: rest =>
    match adapter file w with
    | none => ([Event.call file w], false)
    | some _ =>
      (Event.call file w :: (runWindows adapter file rest).1,
        (runWindows adapter file rest).2)

/-- The output files written for one processed audio file, in write order
(src/scripts/transcription/chapterbatch.py lines 364-384): the canonical
JSON artifact first, then the three derived renderings. -/
def outputSuffixes : List String :=
  [".json", "_TRANSCRIPT.txt", "_MARKDOWN.md", "_LLM.txt"]

/-- Per-file processing (src/scripts/transcription/chapterbatch.py lines
272-389): skip when the canonical JSON artifact exists (lines 276-279);
otherwise call the adapter for every window and, only when all calls
succeed, write the JSON artifact and the three derived renderings. -/
def processFile (adapter : String → Nat → Option String)
    (existsOnDisk : String → Bool) (f : BatchFile) : List Event × Bool :=
  if existsOnDisk (f.name ++ ".json") then ([], true)
  else if (runWindows adapter f.name (List.range f.numWindows)).2 then
    ((runWindows adapter f.name (List.range f.numWindows)).1 ++
      outputSuffixes.map fun suf => Event.write f.name suf, true)
  else runWindows adapter f.name (List.range f.numWindows)

/-- The batch loop of `transcribe_all_chapters`
(src/scripts/transcription/chapterbatch.py lines 272-391): files are
processed in order; an uncaught exception while processing one file aborts
the whole loop (the source has no try/except), leaving later files
untouched.  Returns all emitted events and whether the run completed. -/
def transcribe_all_chapters (adapter : String → Nat → Option String)
    (existsOnDisk : String → Bool) : List BatchFile → List Event × Bool
  | [] => ([], true)
  | f :: fs =>
    if (processFile adapter existsOnDisk f).2 then
      ((processFile adapter existsOnDisk f).1 ++
        (transcribe_all_chapters adapter existsOnDisk fs).1,
        (transcribe_all_chapters adapter existsOnDisk fs).2)
    else processFile adapter existsOnDisk f

theorem runWindows_event_file (adapter : String → Nat → Option String) (file : String) :
    ∀ wsl : List Nat, ∀ ev ∈ (runWindows adapter file wsl).1, ∃ w, ev = Event.call file w
  | [], ev, hev => by simp [runWindows] at hev
  | w :: rest, ev, hev => by
    rw [runWindows] at hev
    cases hadapter : adapter file w with
    | none =>
      rw [hadapter] at hev
      simp at hev
      exact ⟨w, hev⟩
    | some t =>
      rw [hadapter] at hev
      simp only [List.mem_cons] at hev
      rcases hev with rfl | hev
      · exact ⟨w, rfl⟩
      · exact runWindows_event_file adapter file rest ev hev

theorem processFile_event_file (adapter : String → Nat → Option String)
    (existsOnDisk : String → Bool) (f : BatchFile) :
    ∀ ev ∈ (processFile adapter existsOnDisk f).1,
      Event.file ev = f.name ∧ existsOnDisk (f.name ++ ".json") = false := by
  intro ev hev
  rw [processFile] at hev
  by_cases hex : existsOnDisk (f.name ++ ".json") = true
  · rw [if_pos hex] at hev
    simp at hev
  · rw [if_neg hex] at hev
    refine ⟨?_, by simpa using hex⟩
    by_cases hok : (runWindows adapter f.name (List.range f.numWindows)).2 = true
    · rw [if_pos hok] at hev
      rcases List.mem_append.mp hev with h | h
      · obtain ⟨w, rfl⟩ := runWindows_event_file adapter f.name _ ev h
        rfl
      · obtain ⟨suf, _, rfl⟩ := List.mem_map.mp h
        rfl
    · rw [if_neg hok] at hev
      obtain ⟨w, rfl⟩ := runWindows_event_file adapter f.name _ ev hev
      rfl

theorem batch_events_from (adapter : String → Nat → Option String)
    (existsOnDisk : String → Bool) :
    ∀ files : List BatchFile,
      ∀ ev ∈ (transcribe_all_chapters adapter existsOnDisk files).1,
        ∃ f ∈ files, Event.file ev = f.name ∧ existsOnDisk (f.name ++ ".json") = false
  | [], ev, hev => by simp [transcribe_all_chapters] at hev
  | f :: fs, ev, hev => by
    rw [transcribe_all_chapters] at hev
    by_cases hok : (processFile adapter existsOnDisk f).2 = true
    · rw [if_pos hok] at hev
      rcases List.mem_append.mp hev with h | h
      · exact ⟨f, List.mem_cons_self _ _, processFile_event_file adapter existsOnDisk f ev h⟩
      · obtain ⟨g, hg, hgp⟩ := batch_events_from adapter existsOnDisk fs ev h
        exact ⟨g, List.mem_cons_of_mem _ hg, hgp⟩
    · rw [if_neg hok] at hev
      exact ⟨f, List.mem_cons_self _ _, processFile_event_file adapter existsOnDisk f ev hev⟩

/-- C7: a file of the batch whose canonical JSON artifact already exists on
disk is skipped entirely: its per-file processing emits no events at all,
and across the whole batch run no transcription-adapter call and no file
write concerns it. -/
theorem skip_existing_artifact (adapter : String → Nat → Option String)
    (existsOnDisk : String → Bool) (files : List BatchFile) (f : BatchFile)
    (hf : f ∈ files) (hex : existsOnDisk (f.name ++ ".json") = true) :
    processFile adapter existsOnDisk f = ([], true) ∧
      ∀ ev ∈ (transcribe_all_chapters adapter existsOnDisk files).1,
        Event.file ev ≠ f.name := by
  refine ⟨by simp [processFile, hex], ?_⟩
  intro ev hev hfile
  obtain ⟨g, _, hgf, hgex⟩ := batch_events_from adapter existsOnDisk files ev hev
  have hname : g.name = f.name := by rw [← hfile, hgf]
  rw [hname] at hgex
  rw [hgex] at hex
  simp at hex

theorem skip_existing_artifact_witness :
    ((⟨"a", 2⟩ : BatchFile) ∈ [(⟨"a", 2⟩ : BatchFile), ⟨"b", 1⟩]) ∧
      ((fun p => p == "a.json") ("a" ++ ".json") = true) ∧
      (processFile (fun _ _ => some "t") (fun p => p == "a.json") ⟨"a", 2⟩ = ([], true) ∧
        ∀ ev ∈ (transcribe_all_chapters (fun _ _ => some "t") (fun p => p == "a.json")
            [⟨"a", 2⟩, ⟨"b", 1⟩]).1,
          Event.file ev ≠ "a") :=
  ⟨by decide, by decide,
    skip_existing_artifact (fun _ _ => some "t") (fun p => p == "a.json")
      [⟨"a", 2⟩, ⟨"b", 1⟩] ⟨"a", 2⟩ (by decide) (by decide)⟩

theorem processFile_fail_only_calls (adapter : String → Nat → Option String)
    (existsOnDisk : String → Bool) (f : BatchFile)
    (hfail : (processFile adapter existsOnDisk f).2 = false) :
    ∀ ev ∈ (processFile adapter existsOnDisk f).1, ∃ w, ev = Event.call f.name w := by
  intro ev hev
  rw [processFile] at hev hfail
  by_cases hex : existsOnDisk (f.name ++ ".json") = true
  · rw [if_pos hex] at hfail
    simp at hfail
  · rw [if_neg hex] at hev hfail
    by_cases hok : (runWindows adapter f.name (List.range f.numWindows)).2 = true
    · rw [if_pos hok] at hfail
      simp at hfail
    · rw [if_neg hok] at hev
      exact runWindows_event_file adapter f.name _ ev hev

/-- C6 (amended): if the transcription call for some window of one file
raises (and the file is not skipped), then that file's canonical JSON
artifact is never written — its processing emits adapter-call events only —
the files before it in the batch are processed exactly as usual, and the
batch loop aborts: the run's events end with the failing file's calls, so
the remaining files of the batch are never processed (the source loop has
no try/except). -/
theorem failing_file_aborts_batch (adapter : String → Nat → Option String)
    (existsOnDisk : String → Bool) (fs1 fs2 : List BatchFile) (f : BatchFile)
    (hfail : (processFile adapter existsOnDisk f).2 = false)
    (hok : ∀ g ∈ fs1, (processFile adapter existsOnDisk g).2 = true) :
    (transcribe_all_chapters adapter existsOnDisk (fs1 ++ f :: fs2)).1 =
        (fs1.flatMap fun g => (processFile adapter existsOnDisk g).1) ++
          (processFile adapter existsOnDisk f).1 ∧
      (transcribe_all_chapters adapter existsOnDisk (fs1 ++ f :: fs2)).2 = false ∧
      ∀ ev ∈ (processFile adapter existsOnDisk f).1, ∃ w, ev = Event.call f.name w := by
  refine ⟨?_, ?_, processFile_fail_only_calls adapter existsOnDisk f hfail⟩
  · induction fs1 with
    | nil =>
      rw [List.nil_append, List.flatMap_nil, List.nil_append, transcribe_all_chapters,
        if_neg (by rw [hfail]; exact Bool.false_ne_true)]
    | cons g gs ih =>
      have hg : (processFile adapter existsOnDisk g).2 = true :=
        hok g (List.mem_cons_self _ _)
      rw [List.cons_append, transcribe_all_chapters, if_pos hg, List.flatMap_cons,
        List.append_assoc]
      rw [ih fun g' hg' => hok g' (List.mem_cons_of_mem _ hg')]
  · induction fs1 with
    | nil =>
      rw [List.nil_append, transcribe_all_chapters,
        if_neg (by rw [hfail]; exact Bool.false_ne_true)]
      exact hfail
    | cons g gs ih =>
      have hg : (processFile adapter existsOnDisk g).2 = true :=
        hok g (List.mem_cons_self _ _)
      rw [List.cons_append, transcribe_all_chapters, if_pos hg]
      exact ih fun g' hg' => hok g' (List.mem_cons_of_mem _ hg')

theorem failing_file_aborts_batch_witness :
    ((processFile (fun fl _ => if fl = "a" then none else some "t") (fun _ => false)
        ⟨"a", 1⟩).2 = false) ∧
      (∀ g ∈ [(⟨"c", 1⟩ : BatchFile)],
        (processFile (fun fl _ => if fl = "a" then none else some "t") (fun _ => false) g).2 =
          true) ∧
      ((transcribe_all_chapters (fun fl _ => if fl = "a" then none else some "t")
          (fun _ => false) ([⟨"c", 1⟩] ++ (⟨"a", 1⟩ : BatchFile) :: [⟨"b", 1⟩])).1 =
        (([(⟨"c", 1⟩ : BatchFile)].flatMap fun g =>
          (processFile (fun fl _ => if fl = "a" then none else some "t") (fun _ => false) g).1) ++
          (processFile (fun fl _ => if fl = "a" then none else some "t") (fun _ => false)
            ⟨"a", 1⟩).1) ∧
        (transcribe_all_chapters (fun fl _ => if fl = "a" then none else some "t")
          (fun _ => false) ([⟨"c", 1⟩] ++ (⟨"a", 1⟩ : BatchFile) :: [⟨"b", 1⟩])).2 = false ∧
        ∀ ev ∈ (processFile (fun fl _ => if fl = "a" then none else some "t") (fun _ => false)
            ⟨"a", 1⟩).1, ∃ w, ev = Event.call "a" w) :=
  ⟨by decide, by decide,
    failing_file_aborts_batch (fun fl _ => if fl = "a" then none else some "t")
      (fun _ => false) [⟨"c", 1⟩] [⟨"b", 1⟩] ⟨"a", 1⟩ (by decide) (by decide)⟩

/-- C6 counterexample: two pending files `a` and `b`, where transcribing
`a`'s only window raises and `b` would succeed.  The run aborts inside `a`:
its only event is the failed call on `a`, so file `b` is never processed in
that run and in particular `b`'s canonical artifact is never written —
the batch driver does not continue with the remaining files. -/
theorem batch_abort_cex :
    transcribe_all_chapters (fun fl _ => if fl = "a" then none else some "t")
        (fun _ => false) [⟨"a", 1⟩, ⟨"b", 1⟩] =
      ([Event.call "a" 0], false) ∧
      Event.write "b" ".json" ∉
        (transcribe_all_chapters (fun fl _ => if fl = "a" then none else some "t")
          (fun _ => false) [⟨"a", 1⟩, ⟨"b", 1⟩]).1 := by
  constructor
  · decide
  · decide
